import Mathlib

/-!
# go-proc: a verification development

Shallow embedding of package `proc` (errors.go, sequence.go, concurrent.go,
trace.go, main.go) and theorems about it.
-/

namespace Proc

/-! ## errors.go -/

/-- The struct `TaskError` of trace.go, over the type `E` of error values
(the two types are defined together, see `Error`). -/
structure TaskErrorOf (E : Type) where
  TaskType : String
  Err : E

/-- Values of Go's `error` interface as they occur in package `proc`.
`nil` is the nil interface value, `leaf` stands for a value of any error type
defined outside the package, `task` holds a `TaskError` struct of trace.go and
`MultiError` is the slice type `[]error` of errors.go (a typed nil slice is
`MultiError []`, which is a non-nil interface value). -/
inductive Error where
  | nil : Error
  | leaf (msg : String) : Error
  | task (t : TaskErrorOf Error) : Error
  | MultiError (errs : List Error) : Error

/-- The struct type `TaskError` of trace.go. -/
abbrev TaskError := TaskErrorOf Error

/-- The method `func (err TaskError) Cause() error`. -/
def TaskError.Cause (err : TaskError) : Error := err.Err

namespace Error

/-- The type switch `case MultiError` succeeds. -/
def isMulti : Error → Bool
  | MultiError _ => true
  | _ => false

/-- The test `err != nil` on an interface value. -/
def isNil : Error → Bool
  | nil => true
  | _ => false

end Error

open Error

/-- One iteration of the `for _, err := range errs` loop of `appendErrs`,
as a function from the old value of `ret` to the new one.

In the branch `case MultiError` with `ret` non-nil and not a `MultiError`
the source builds the slice `new` (`new[0] = ret; copy(new[1:], tErr)`) but
never assigns it to `ret`, so `ret` is left as it was. -/
def appendErrsStep (ret err : Error) : Error :=
  match err with
  | nil => ret
  | MultiError tErr =>
    match ret with
    | MultiError tExist => MultiError (tExist ++ tErr)
    | nil => MultiError tErr
    | _ => ret
  | _ =>
    match ret with
    | MultiError tExist => MultiError (tExist ++ [err])
    | nil => err
    | _ => MultiError [ret, err]

/-- The function `appendErrs(errs ...error) error` of errors.go. -/
def appendErrs (errs : List Error) : Error :=
  match errs with
  | [] => nil
  | [e] => e
  | _ => errs.foldl appendErrsStep nil

/-- The component errors of an error value: none for nil, the members for a
`MultiError`, the value itself otherwise. -/
def components : Error → List Error
  | nil => []
  | MultiError errs => errs
  | e => [e]

/-! ## proc.go: contexts and processes -/

/-- The `context.Context` values the package handles: the root context, a
context made by `context.WithCancel` (numbered in order of creation) and a
context made by `trace.NewTask`. -/
inductive Context where
  | background : Context
  | cancelCtx (parent : Context) (id : Nat) : Context
  | taskCtx (parent : Context) (taskType : String) : Context
  deriving DecidableEq, Repr

/-- The state a process runs in: the contexts made so far, the contexts whose
cancel function has been called, and the state `user` of the program. -/
structure World (σ : Type) where
  nextId : Nat
  cancelled : List Context
  user : σ

/-- The call `context.WithCancel(parent)`: a fresh child context; its cancel
function is `cancelFn` at that context. -/
def WithCancel {σ : Type} (parent : Context) (w : World σ) : Context × World σ :=
  (Context.cancelCtx parent w.nextId, { w with nextId := w.nextId + 1 })

/-- Calling the cancel function of the context `ctx`. -/
def cancelFn {σ : Type} (ctx : Context) (w : World σ) : World σ :=
  { w with cancelled := ctx :: w.cancelled }

/-- The call `trace.NewTask(ctx, taskType)`, of which only the returned context
is kept: a child of `ctx` carrying the task. -/
def NewTask (ctx : Context) (taskType : String) : Context :=
  Context.taskCtx ctx taskType

/-- Whether `ctx.Done()` is closed: the cancel function of the context or of
one of its ancestors has been called. -/
def Context.isDone (cancelled : List Context) : Context → Bool
  | Context.background => false
  | Context.cancelCtx parent id =>
    decide (Context.cancelCtx parent id ∈ cancelled) || parent.isDone cancelled
  | Context.taskCtx parent _ => parent.isDone cancelled

/-- The type `Impl func(ctx context.Context) error`: a process gets a context,
reads and writes the state, and returns an error value. -/
abbrev Impl (σ : Type) := Context → World σ → Error × World σ

/-- What a combinator is seen to do, in order. `ran i ctx err`: the call
`impl(ctx)` of the `i`-th process has returned `err`; `merged e`: the
assignment `allErr = appendErrs(allErr, err)` has stored `e`; `cancel ctx`: the
cancel function of `ctx` has been called; `done i`: the goroutine of the
`i`-th process has called `wg.Done()`; `waited`: `wg.Wait()` has returned. -/
inductive Event where
  | ran (i : Nat) (ctx : Context) (err : Error) : Event
  | merged (allErr : Error) : Event
  | cancel (ctx : Context) : Event
  | done (i : Nat) : Event
  | waited : Event

/-- The outcome of running a combinator: the returned error, the state it
leaves and the events in the order they happened. -/
structure Run (σ : Type) where
  err : Error
  world : World σ
  trace : List Event

/-! ## sequence.go -/

/-- The loop `for _, impl := range impls` of `Sequence`, from the `i`-th
process on. -/
def SequenceLoop {σ : Type} (ctx : Context) :
    List (Impl σ) → Nat → World σ → List Event → Run σ
  | [], _, w, tr => ⟨nil, w, tr⟩
  | impl :: rest, i, w, tr =>
    let r := impl ctx w
    if r.1.isNil then SequenceLoop ctx rest (i + 1) r.2 (tr ++ [Event.ran i ctx r.1])
    else ⟨r.1, r.2, tr ++ [Event.ran i ctx r.1]⟩

/-- The process returned by `Sequence(impls...)`, run on `ctx`, with the calls
it makes. -/
def SequenceRun {σ : Type} (impls : List (Impl σ)) (ctx : Context) (w : World σ) : Run σ :=
  SequenceLoop ctx impls 0 w []

/-- The function `Sequence(impls ...Impl) Impl`. -/
def Sequence {σ : Type} (impls : List (Impl σ)) : Impl σ :=
  fun ctx w => ((SequenceRun impls ctx w).err, (SequenceRun impls ctx w).world)

/-! ## trace.go -/

/-- The function `Task(taskType string, impl Impl) Impl`. The deferred
`task.End()` only closes the task of the execution tracer. -/
def Task {σ : Type} (taskType : String) (impl : Impl σ) : Impl σ :=
  fun ctx w =>
    let cctx := NewTask ctx taskType
    let r := impl cctx w
    if r.1.isNil then (nil, r.2) else (Error.task ⟨taskType, r.1⟩, r.2)

/-! ## concurrent.go -/

/-- The variables shared by the goroutines of `concurrent`, with the events so
far. -/
structure ConcState (σ : Type) where
  allErr : Error
  world : World σ
  trace : List Event

/-- The call `cancel()` guarded by `if cancel != nil`; `cancel` is `none` for the
nil function and `some c` for the cancel function of the context `c`. -/
def callCancel {σ : Type} (cancel : Option Context) (s : ConcState σ) : ConcState σ :=
  match cancel with
  | some c => { s with world := cancelFn c s.world, trace := s.trace ++ [Event.cancel c] }
  | none => s

/-- The body of the goroutine `go func(impl Impl) { ... }(impl)` started for the
`i`-th process, from the return of `impl(chiCtx)` to `wg.Done()`. -/
def goroutine {σ : Type} (cancel : Option Context) (chiCtx : Context) (i : Nat)
    (impl : Impl σ) (s : ConcState σ) : ConcState σ :=
  let r := impl chiCtx s.world
  let s1 : ConcState σ :=
    { s with world := r.2, trace := s.trace ++ [Event.ran i chiCtx r.1] }
  let s2 : ConcState σ :=
    if r.1.isNil then s1
    else
      let e := appendErrs [s1.allErr, r.1]
      callCancel cancel { s1 with allErr := e, trace := s1.trace ++ [Event.merged e] }
  { s2 with trace := s2.trace ++ [Event.done i] }

/-- The goroutines of `concurrent` run to their end one after the other in the
order `order` in which they complete (indices into `impls`). -/
def runGoroutines {σ : Type} (cancel : Option Context) (chiCtx : Context)
    (impls : List (Impl σ)) (order : List Nat) (s : ConcState σ) : ConcState σ :=
  order.foldl
    (fun s i =>
      match impls[i]? with
      | some impl => goroutine cancel chiCtx i impl s
      | none => s)
    s

/-- The process returned by `concurrent(group, impls...)`, run on `ctx`, when its
goroutines complete in the order `order`. -/
def concurrentRun {σ : Type} (group : Bool) (impls : List (Impl σ)) (order : List Nat)
    (ctx : Context) (w : World σ) : Run σ :=
  let cw : (Context × Option Context) × World σ :=
    if group then ((( WithCancel ctx w).1, some (WithCancel ctx w).1), (WithCancel ctx w).2)
    else ((ctx, none), w)
  let chiCtx := cw.1.1
  let cancel := cw.1.2
  let s1 := runGoroutines cancel chiCtx impls order ⟨nil, cw.2, []⟩
  let s2 : ConcState σ := { s1 with trace := s1.trace ++ [Event.waited] }
  let s3 := callCancel cancel s2
  ⟨s3.allErr, s3.world, s3.trace⟩

/-- The function `concurrent(group bool, impls ...Impl) Impl`, for the
completion order `order`. -/
def concurrent {σ : Type} (group : Bool) (impls : List (Impl σ)) (order : List Nat) : Impl σ :=
  fun ctx w =>
    ((concurrentRun group impls order ctx w).err, (concurrentRun group impls order ctx w).world)

/-- The function `Concurrent(impls ...Impl) Impl`. -/
def Concurrent {σ : Type} (impls : List (Impl σ)) (order : List Nat) : Impl σ :=
  concurrent false impls order

/-- The function `ConcurrentGroup(impls ...Impl) Impl`. -/
def ConcurrentGroup {σ : Type} (impls : List (Impl σ)) (order : List Nat) : Impl σ :=
  concurrent true impls order

/-! ## main.go -/

/-- Who takes the next step while `Main` runs: the operating system delivering
`os.Interrupt`, the goroutine started by `Main`, or `Main` itself. -/
inductive Actor where
  | signal : Actor
  | worker : Actor
  | main : Actor

/-- The state of one call of `Main`. `intC`: the channel `intC` (capacity 1)
holds a signal; `notify`: `signal.Notify` is in force; `exitC`: the channel
`exitC` is closed; `err`: the variable `err` shared by the two goroutines;
`workerPc`: 0 before `err = impl(ctx)`, 1 before `close(exitC)`, 2 at the end;
`mainPc`: 0 at `select`, 1 at `cancel()`, 2 at `signal.Stop(intC)`, 3 at
`return err`, 4 after it; `result`: the value `Main` has returned. -/
structure MainState (σ : Type) where
  intC : Bool
  notify : Bool
  exitC : Bool
  err : Error
  world : World σ
  workerPc : Nat
  mainPc : Nat
  result : Option Error

/-- One step of `actor` in a call of `Main` whose context is `ctx`; a step that
cannot be taken (a blocked `select`, a finished goroutine) leaves the state as
it is. -/
def mainStep {σ : Type} (impl : Impl σ) (ctx : Context) (s : MainState σ) :
    Actor → MainState σ
  | Actor.signal =>
    if s.notify && !s.intC then { s with intC := true } else s
  | Actor.worker =>
    match s.workerPc with
    | 0 => { s with err := (impl ctx s.world).1, world := (impl ctx s.world).2, workerPc := 1 }
    | 1 => { s with exitC := true, workerPc := 2 }
    | _ => s
  | Actor.main =>
    match s.mainPc with
    | 0 =>
      if s.intC then { s with intC := false, mainPc := 1 }
      else if s.exitC then { s with mainPc := 1 }
      else s
    | 1 => { s with world := cancelFn ctx s.world, mainPc := 2 }
    | 2 => { s with notify := false, mainPc := 3 }
    | 3 => { s with result := some s.err, mainPc := 4 }
    | _ => s

/-- The state in which `Main` reaches its `select`: the channels made, the
context derived from `context.Background()`, the goroutine started. -/
def mainInit {σ : Type} (w : World σ) : Context × MainState σ :=
  ((WithCancel Context.background w).1,
    { intC := false, notify := true, exitC := false, err := nil,
      world := (WithCancel Context.background w).2,
      workerPc := 0, mainPc := 0, result := none })

/-- The function `Main(impl Impl) error` under the schedule `sched`: the value
it returns, or `none` when it has not returned by the end of `sched`. -/
def Main {σ : Type} (impl : Impl σ) (sched : List Actor) (w : World σ) : Option Error :=
  (sched.foldl (mainStep impl (mainInit w).1) (mainInit w).2).result

/-! ## Predicates used in the statements -/

/-- Two error values are equal as sets of component errors: both nil, or the same
single error, or two `MultiError`s with the same members. -/
def sameComponents (a b : Error) : Prop :=
  (a = nil ∧ b = nil) ∨
  (a.isNil = false ∧ a.isMulti = false ∧ a = b) ∨
  (∃ xs ys, a = MultiError xs ∧ b = MultiError ys ∧ ∀ x, x ∈ xs ↔ x ∈ ys)

/-- An error value that, when it is a `MultiError`, has at least two members, none
of which is a `MultiError`. -/
def flatAggregate : Error → Prop
  | MultiError errs => 2 ≤ errs.length ∧ ∀ m ∈ errs, m.isMulti = false
  | _ => True

/-- The state left when the processes of `impls` have all run on `ctx`, one after
the other in list order, whatever they return. -/
def runAll {σ : Type} (ctx : Context) : List (Impl σ) → World σ → World σ
  | [], w => w
  | p :: ps, w => runAll ctx ps (p ctx w).2

/-- What the `j`-th process of `impls` returns on `ctx` when the processes before
it have run in list order, starting in `w`; `none` when there is no `j`-th
process. -/
def resultAt {σ : Type} (ctx : Context) (impls : List (Impl σ)) (w : World σ) (j : Nat) :
    Option Error :=
  (impls.get? j).map (fun p => (p ctx (runAll ctx (impls.take j) w)).1)

/-- The events of a guarded call `if cancel != nil { cancel() }`. -/
def cancelEvents : Option Context → List Event
  | some c => [Event.cancel c]
  | none => []

/-- The events of one goroutine of `concurrent`, started for the `i`-th process
on `chiCtx`: the process returns some `e`; when `e` is nil the goroutine calls
`wg.Done()` at once, otherwise it first stores the merged error and then makes
the guarded call of `cancel`. -/
def goroutineEvents (cancel : Option Context) (chiCtx : Context) (i : Nat)
    (evs : List Event) : Prop :=
  ∃ e, (e = nil ∧ evs = [Event.ran i chiCtx e, Event.done i]) ∨
    (e ≠ nil ∧ ∃ a, evs = Event.ran i chiCtx e :: Event.merged a ::
      (cancelEvents cancel ++ [Event.done i]))

/-- The state left when the processes of `impls` have run on `ctx` to their end
one after the other in the order `order`, whatever they return. -/
def runOrder {σ : Type} (ctx : Context) (impls : List (Impl σ)) (order : List Nat)
    (w : World σ) : World σ :=
  order.foldl
    (fun w i =>
      match impls[i]? with
      | some impl => (impl ctx w).2
      | none => w)
    w

/-- What one child of `ConcurrentGroup` does to the state and to the merged error,
told from the child alone: the `i`-th process runs on `d` in the state `st.1`;
when it returns nil the merged error `st.2` stays, otherwise its error is merged
into `st.2` and the cancel function of `d` is called on the state it leaves. -/
def groupStep {σ : Type} (d : Context) (impls : List (Impl σ)) (st : World σ × Error)
    (i : Nat) : World σ × Error :=
  match impls[i]? with
  | some impl =>
    if (impl d st.1).1.isNil then ((impl d st.1).2, st.2)
    else (cancelFn d (impl d st.1).2, appendErrs [st.2, (impl d st.1).1])
  | none => st

/-- The state and the merged error after the children listed in `order` have
completed one after the other, starting from `st`. -/
def groupFold {σ : Type} (d : Context) (impls : List (Impl σ)) (order : List Nat)
    (st : World σ × Error) : World σ × Error :=
  order.foldl (groupStep d impls) st

/-- The events expected of the goroutine of the `i`-th child of `ConcurrentGroup`
when the child, run on `d`, returns `e` and the merged error so far is `acc`. -/
def goroutineBlock (d : Context) (i : Nat) (e acc : Error) : List Event :=
  if e.isNil then [Event.ran i d e, Event.done i]
  else [Event.ran i d e, Event.merged (appendErrs [acc, e]), Event.cancel d, Event.done i]

/-! ## Processes and states used as concrete inputs -/

/-- A state with no context made or cancelled yet. -/
def world0 : World Unit := ⟨0, [], ()⟩

/-- A process that returns the error named `msg` and leaves the state as it is. -/
def failWith (msg : String) : Impl Unit := fun _ w => (leaf msg, w)

/-- A process that returns nil and leaves the state as it is. -/
def succeed : Impl Unit := fun _ w => (nil, w)

/-- The process `Concurrent(failWith "e2", failWith "e3")`, its children completing
in list order; it returns the aggregate `MultiError{e2, e3}`. -/
def failBoth : Impl Unit := Concurrent [failWith "e2", failWith "e3"] [0, 1]

/-! ## Theorems: errors.go -/

theorem isNil_eq_true_iff (e : Error) : e.isNil = true ↔ e = nil := by
  cases e <;> simp [Error.isNil]

theorem isNil_eq_false_iff (e : Error) : e.isNil = false ↔ e ≠ nil := by
  cases e <;> simp [Error.isNil]

theorem appendErrsStep_nil_left (e : Error) : appendErrsStep nil e = e := by
  cases e <;> rfl

theorem appendErrsStep_nil_right (ret : Error) : appendErrsStep ret nil = ret := rfl

theorem appendErrs_eq_foldl (errs : List Error) :
    appendErrs errs = errs.foldl appendErrsStep nil := by
  match errs with
  | [] => rfl
  | [e] => simp [appendErrs, appendErrsStep_nil_left]
  | _ :: _ :: _ => rfl

theorem foldl_appendErrsStep_all_nil (errs : List Error) (ret : Error)
    (h : ∀ e ∈ errs, e = nil) : errs.foldl appendErrsStep ret = ret := by
  induction errs generalizing ret with
  | nil => rfl
  | cons e rest ih =>
    have he : e = nil := h e (List.mem_cons_self _ _)
    subst he
    simpa [appendErrsStep_nil_right] using ih ret (fun x hx => h x (List.mem_cons_of_mem _ hx))

theorem sameComponents_refl (a : Error) : sameComponents a a := by
  cases a with
  | nil => exact Or.inl ⟨rfl, rfl⟩
  | leaf m => exact Or.inr (Or.inl ⟨rfl, rfl, rfl⟩)
  | task t => exact Or.inr (Or.inl ⟨rfl, rfl, rfl⟩)
  | MultiError xs => exact Or.inr (Or.inr ⟨xs, xs, rfl, rfl, fun _ => Iff.rfl⟩)

theorem appendErrs_nested_eq (e1 e2 e3 : Error) :
    appendErrs [appendErrs [e1, e2], e3] = appendErrs [e1, e2, e3] := by
  simp [appendErrs, appendErrsStep_nil_left]

/-- C8. Aggregate flattening law: `appendErrs(appendErrs(e1, e2), e3)` and
`appendErrs(e1, e2, e3)` are equal as sets of component errors, for all error
values `e1`, `e2`, `e3`. -/
theorem appendErrs_flattening_law (e1 e2 e3 : Error) :
    sameComponents (appendErrs [appendErrs [e1, e2], e3]) (appendErrs [e1, e2, e3]) := by
  rw [appendErrs_nested_eq]
  exact sameComponents_refl _

/-- C9. Degenerate cases of the merge: a list whose entries are all nil (the empty
list included) merges to nil, which is not an empty `MultiError`; a list with
exactly one non-nil entry `e`, nil entries before and after it, merges to `e`
itself. -/
theorem appendErrs_degenerate (errs pre post : List Error) (e : Error)
    (hall : ∀ x ∈ errs, x = nil) (hpre : ∀ x ∈ pre, x = nil)
    (hpost : ∀ x ∈ post, x = nil) (_hne : e ≠ nil) :
    (appendErrs [] = nil ∧ appendErrs errs = nil ∧ appendErrs errs ≠ MultiError []) ∧
    appendErrs (pre ++ e :: post) = e := by
  have h1 : appendErrs errs = nil := by
    rw [appendErrs_eq_foldl]; exact foldl_appendErrsStep_all_nil errs nil hall
  refine ⟨⟨rfl, h1, ?_⟩, ?_⟩
  · rw [h1]; intro h; cases h
  · rw [appendErrs_eq_foldl, List.foldl_append, foldl_appendErrsStep_all_nil pre nil hpre,
      List.foldl_cons, appendErrsStep_nil_left, foldl_appendErrsStep_all_nil post e hpost]

theorem appendErrs_degenerate_witness :
    (appendErrs [] = nil ∧ appendErrs [nil, nil] = nil ∧ appendErrs [nil, nil] ≠ MultiError []) ∧
    appendErrs ([nil] ++ leaf "boom" :: [nil, nil]) = leaf "boom" :=
  appendErrs_degenerate [nil, nil] [nil] [nil, nil] (leaf "boom")
    (by simp) (by simp) (by simp) (by simp)

theorem flatAggregate_of_isMulti_false (e : Error) (h : e.isMulti = false) :
    flatAggregate e := by
  cases e <;> simp_all [flatAggregate, Error.isMulti]

theorem appendErrsStep_flatAggregate (ret err : Error)
    (hret : flatAggregate ret) (herr : flatAggregate err) :
    flatAggregate (appendErrsStep ret err) := by
  cases err with
  | nil => exact hret
  | MultiError tErr =>
    cases ret with
    | nil => exact herr
    | leaf m => exact hret
    | task t => exact hret
    | MultiError tExist =>
      simp only [appendErrsStep, flatAggregate, List.length_append, List.mem_append] at *
      refine ⟨by omega, ?_⟩
      intro m hm
      rcases hm with hm | hm
      · exact hret.2 m hm
      · exact herr.2 m hm
  | leaf msg =>
    cases ret with
    | nil => exact herr
    | leaf m => simp [appendErrsStep, flatAggregate, Error.isMulti]
    | task t => simp [appendErrsStep, flatAggregate, Error.isMulti]
    | MultiError tExist =>
      simp only [appendErrsStep, flatAggregate, List.length_append, List.mem_append] at *
      refine ⟨by omega, ?_⟩
      intro m hm
      rcases hm with hm | hm
      · exact hret.2 m hm
      · simp at hm; subst hm; rfl
  | task t0 =>
    cases ret with
    | nil => exact herr
    | leaf m => simp [appendErrsStep, flatAggregate, Error.isMulti]
    | task t => simp [appendErrsStep, flatAggregate, Error.isMulti]
    | MultiError tExist =>
      simp only [appendErrsStep, flatAggregate, List.length_append, List.mem_append] at *
      refine ⟨by omega, ?_⟩
      intro m hm
      rcases hm with hm | hm
      · exact hret.2 m hm
      · simp at hm; subst hm; rfl

theorem foldl_appendErrsStep_flatAggregate (errs : List Error) (ret : Error)
    (hret : flatAggregate ret) (h : ∀ e ∈ errs, flatAggregate e) :
    flatAggregate (errs.foldl appendErrsStep ret) := by
  induction errs generalizing ret with
  | nil => exact hret
  | cons e rest ih =>
    exact ih _ (appendErrsStep_flatAggregate ret e hret (h e (List.mem_cons_self _ _)))
      (fun x hx => h x (List.mem_cons_of_mem _ hx))

/-- C10. Well-formed aggregates are preserved by the merge: when every `MultiError`
entry of the input list has at least two members and no member that is a
`MultiError`, a `MultiError` returned by `appendErrs` has at least two members
and none of them is a `MultiError`. -/
theorem appendErrs_flat (errs : List Error)
    (h : ∀ e ∈ errs, ∀ ms, e = MultiError ms → 2 ≤ ms.length ∧ ∀ m ∈ ms, m.isMulti = false)
    (ms : List Error) (hms : appendErrs errs = MultiError ms) :
    2 ≤ ms.length ∧ ∀ m ∈ ms, m.isMulti = false := by
  have hin : ∀ e ∈ errs, flatAggregate e := by
    intro e he
    cases e with
    | MultiError xs => exact h _ he xs rfl
    | nil => trivial
    | leaf m => trivial
    | task t => trivial
  have hout := foldl_appendErrsStep_flatAggregate errs nil trivial hin
  rw [← appendErrs_eq_foldl, hms] at hout
  exact hout

theorem appendErrs_flat_witness :
    2 ≤ [leaf "b", leaf "c", leaf "a", leaf "d", nil].length ∧
      ∀ m ∈ [leaf "b", leaf "c", leaf "a", leaf "d", nil], m.isMulti = false :=
  appendErrs_flat [MultiError [leaf "b", leaf "c"], leaf "a", MultiError [leaf "d", nil]]
    (by
      intro e he ms hms
      simp only [List.mem_cons, List.mem_singleton, List.not_mem_nil, or_false] at he
      rcases he with he | he | he <;> subst he <;> cases hms <;>
        simp [Error.isMulti])
    [leaf "b", leaf "c", leaf "a", leaf "d", nil] rfl

/-- C1 (failing input). Merging the plain error `e1` followed by the aggregate
`MultiError{e2, e3}` returns `e1` alone: `e2` and `e3` are not components of the
result, and the result is not a `MultiError`. -/
theorem appendErrs_loses_members :
    appendErrs [leaf "e1", MultiError [leaf "e2", leaf "e3"]] = leaf "e1" ∧
    leaf "e2" ∉ components (appendErrs [leaf "e1", MultiError [leaf "e2", leaf "e3"]]) ∧
    leaf "e3" ∉ components (appendErrs [leaf "e1", MultiError [leaf "e2", leaf "e3"]]) ∧
    (appendErrs [leaf "e1", MultiError [leaf "e2", leaf "e3"]]).isMulti = false := by
  refine ⟨rfl, ?_, ?_, rfl⟩ <;>
    simp [appendErrs, appendErrsStep, components]

/-! ## Theorems: sequence.go -/

theorem resultAt_cons_zero {σ : Type} (ctx : Context) (p : Impl σ) (ps : List (Impl σ))
    (w : World σ) : resultAt ctx (p :: ps) w 0 = some (p ctx w).1 := rfl

theorem resultAt_cons_succ {σ : Type} (ctx : Context) (p : Impl σ) (ps : List (Impl σ))
    (w : World σ) (j : Nat) :
    resultAt ctx (p :: ps) w (j + 1) = resultAt ctx ps (p ctx w).2 j := rfl

theorem range_succ_map_ran (ctx : Context) (i n : Nat) :
    (List.range (n + 1)).map (fun j => Event.ran (i + j) ctx nil)
      = Event.ran i ctx nil :: (List.range n).map (fun j => Event.ran (i + 1 + j) ctx nil) := by
  rw [List.range_succ_eq_map]
  simp only [List.map_cons, List.map_map, Nat.add_zero, List.cons.injEq, true_and]
  apply List.map_congr_left
  intro j _
  simp only [Function.comp_apply]
  congr 1
  omega

theorem SequenceLoop_spec {σ : Type} (ctx : Context) (impls : List (Impl σ)) :
    ∀ (i : Nat) (w : World σ) (tr : List Event),
      ((SequenceLoop ctx impls i w tr).err = nil ∧
        (∀ j, j < impls.length → resultAt ctx impls w j = some nil) ∧
        (SequenceLoop ctx impls i w tr).trace
          = tr ++ (List.range impls.length).map (fun j => Event.ran (i + j) ctx nil) ∧
        (SequenceLoop ctx impls i w tr).world = runAll ctx impls w) ∨
      (∃ k, k < impls.length ∧
        (∀ j, j < k → resultAt ctx impls w j = some nil) ∧
        resultAt ctx impls w k = some (SequenceLoop ctx impls i w tr).err ∧
        (SequenceLoop ctx impls i w tr).err ≠ nil ∧
        (SequenceLoop ctx impls i w tr).trace
          = tr ++ (List.range k).map (fun j => Event.ran (i + j) ctx nil)
              ++ [Event.ran (i + k) ctx (SequenceLoop ctx impls i w tr).err] ∧
        (SequenceLoop ctx impls i w tr).world = runAll ctx (impls.take (k + 1)) w) := by
  induction impls with
  | nil =>
    intro i w tr
    left
    simp [SequenceLoop, runAll]
  | cons p ps ih =>
    intro i w tr
    by_cases hp : (p ctx w).1.isNil = true
    · have hnil : (p ctx w).1 = nil := (isNil_eq_true_iff _).1 hp
      have hloop : SequenceLoop ctx (p :: ps) i w tr
          = SequenceLoop ctx ps (i + 1) (p ctx w).2 (tr ++ [Event.ran i ctx nil]) := by
        rw [SequenceLoop]
        simp only [hnil]
        rfl
      rw [hloop]
      rcases ih (i + 1) (p ctx w).2 (tr ++ [Event.ran i ctx nil]) with h | ⟨k, hk, hbefore, hat, hne, htr, hw⟩
      · left
        obtain ⟨herr, hall, htr, hw⟩ := h
        refine ⟨herr, ?_, ?_, ?_⟩
        · intro j hj
          cases j with
          | zero => rw [resultAt_cons_zero, hnil]
          | succ j =>
            rw [resultAt_cons_succ]
            exact hall j (by simpa using hj)
        · rw [htr, List.length_cons, range_succ_map_ran]
          simp
        · rw [hw]; rfl
      · right
        refine ⟨k + 1, by simpa using hk, ?_, ?_, hne, ?_, ?_⟩
        · intro j hj
          cases j with
          | zero => rw [resultAt_cons_zero, hnil]
          | succ j =>
            rw [resultAt_cons_succ]
            exact hbefore j (by omega)
        · rw [resultAt_cons_succ]; exact hat
        · rw [htr, range_succ_map_ran]
          simp [Nat.add_assoc, Nat.add_comm 1 k]
        · rw [hw]; rfl
    · have hne : (p ctx w).1 ≠ nil := fun h => hp ((isNil_eq_true_iff _).2 h)
      have hloop : SequenceLoop ctx (p :: ps) i w tr
          = ⟨(p ctx w).1, (p ctx w).2, tr ++ [Event.ran i ctx (p ctx w).1]⟩ := by
        simp [SequenceLoop, hp]
      rw [hloop]
      right
      refine ⟨0, by simp, ?_, ?_, hne, ?_, ?_⟩
      · intro j hj; omega
      · exact resultAt_cons_zero ctx p ps w
      · simp
      · rfl

/-- C3. `Sequence(ps)(ctx)` calls the processes in input order, each with `ctx`:
either every process returns nil, all of them are called (the trace lists calls
`0, 1, ..., n-1`) and the result is nil; or some `k`-th process is the first to
return a non-nil error, the calls are exactly `0, ..., k` (no process after the
`k`-th is called), and the result is the error the `k`-th process returned. In
both cases the state left is the one left by the processes that were called. -/
theorem Sequence_spec {σ : Type} (impls : List (Impl σ)) (ctx : Context) (w : World σ) :
    ((Sequence impls ctx w).1 = nil ∧
      (∀ j, j < impls.length → resultAt ctx impls w j = some nil) ∧
      (SequenceRun impls ctx w).trace
        = (List.range impls.length).map (fun j => Event.ran j ctx nil) ∧
      (Sequence impls ctx w).2 = runAll ctx impls w) ∨
    (∃ k, k < impls.length ∧
      (∀ j, j < k → resultAt ctx impls w j = some nil) ∧
      resultAt ctx impls w k = some (Sequence impls ctx w).1 ∧
      (Sequence impls ctx w).1 ≠ nil ∧
      (SequenceRun impls ctx w).trace
        = (List.range k).map (fun j => Event.ran j ctx nil)
            ++ [Event.ran k ctx (Sequence impls ctx w).1] ∧
      (Sequence impls ctx w).2 = runAll ctx (impls.take (k + 1)) w) := by
  have h := SequenceLoop_spec ctx impls 0 w []
  simpa [Sequence, SequenceRun] using h

/-! ## Theorems: trace.go -/

/-- C4. When `p`, called by `Task(label, p)`, returns nil, `Task(label, p)` returns
nil; when it returns a non-nil `err`, `Task(label, p)` returns a `TaskError`
whose `TaskType` is `label` and whose `Cause()` is `err`. -/
theorem Task_spec {σ : Type} (label : String) (p : Impl σ) (ctx : Context) (w : World σ)
    (err : Error) (w1 : World σ) (hp : p (NewTask ctx label) w = (err, w1)) :
    (err = nil → Task label p ctx w = (nil, w1)) ∧
    (err ≠ nil → ∃ te : TaskError, Task label p ctx w = (Error.task te, w1) ∧
      te.TaskType = label ∧ TaskError.Cause te = err) := by
  constructor
  · intro h
    subst h
    simp [Task, hp, Error.isNil]
  · intro h
    refine ⟨⟨label, err⟩, ?_, rfl, rfl⟩
    have hn : err.isNil = false := (isNil_eq_false_iff err).2 h
    simp [Task, hp, hn]

theorem Task_spec_witness :
    (leaf "boom" = nil → Task "T" (failWith "boom") Context.background world0 = (nil, world0)) ∧
    (leaf "boom" ≠ nil → ∃ te : TaskError,
      Task "T" (failWith "boom") Context.background world0 = (Error.task te, world0) ∧
      te.TaskType = "T" ∧ TaskError.Cause te = leaf "boom") :=
  Task_spec "T" (failWith "boom") Context.background world0 (leaf "boom") world0 rfl

/-! ## Theorems: concurrent.go -/

theorem forall₂_exists_of_mem_left {α β : Type} {R : α → β → Prop} {l1 : List α} {l2 : List β}
    (h : List.Forall₂ R l1 l2) {a : α} (ha : a ∈ l1) : ∃ b, b ∈ l2 ∧ R a b := by
  induction h with
  | nil => cases ha
  | cons hab _ ih =>
    rcases List.mem_cons.1 ha with rfl | ha
    · exact ⟨_, List.mem_cons_self _ _, hab⟩
    · obtain ⟨b, hb, hr⟩ := ih ha
      exact ⟨b, List.mem_cons_of_mem _ hb, hr⟩

theorem forall₂_exists_of_mem_right {α β : Type} {R : α → β → Prop} {l1 : List α} {l2 : List β}
    (h : List.Forall₂ R l1 l2) {b : β} (hb : b ∈ l2) : ∃ a, a ∈ l1 ∧ R a b := by
  induction h with
  | nil => cases hb
  | cons hab _ ih =>
    rcases List.mem_cons.1 hb with rfl | hb
    · exact ⟨_, List.mem_cons_self _ _, hab⟩
    · obtain ⟨a, ha, hr⟩ := ih hb
      exact ⟨a, List.mem_cons_of_mem _ ha, hr⟩

theorem callCancel_trace {σ : Type} (cancel : Option Context) (s : ConcState σ) :
    (callCancel cancel s).trace = s.trace ++ cancelEvents cancel := by
  cases cancel <;> simp [callCancel, cancelEvents]

theorem goroutine_trace {σ : Type} (cancel : Option Context) (chiCtx : Context) (i : Nat)
    (impl : Impl σ) (s : ConcState σ) :
    ∃ evs, (goroutine cancel chiCtx i impl s).trace = s.trace ++ evs ∧
      goroutineEvents cancel chiCtx i evs := by
  by_cases hp : (impl chiCtx s.world).1.isNil = true
  · have hnil : (impl chiCtx s.world).1 = nil := (isNil_eq_true_iff _).1 hp
    refine ⟨[Event.ran i chiCtx nil, Event.done i], ?_, nil, Or.inl ⟨rfl, rfl⟩⟩
    simp [goroutine, hnil, Error.isNil]
  · have hne : (impl chiCtx s.world).1 ≠ nil := fun h => hp ((isNil_eq_true_iff _).2 h)
    refine ⟨Event.ran i chiCtx (impl chiCtx s.world).1 ::
        Event.merged (appendErrs [s.allErr, (impl chiCtx s.world).1]) ::
        (cancelEvents cancel ++ [Event.done i]), ?_, _, Or.inr ⟨hne, _, rfl⟩⟩
    simp [goroutine, hp, callCancel_trace]

theorem runGoroutines_cons {σ : Type} (cancel : Option Context) (chiCtx : Context)
    (impls : List (Impl σ)) (i : Nat) (rest : List Nat) (s : ConcState σ) (impl : Impl σ)
    (h : impls[i]? = some impl) :
    runGoroutines cancel chiCtx impls (i :: rest) s
      = runGoroutines cancel chiCtx impls rest (goroutine cancel chiCtx i impl s) := by
  simp [runGoroutines, h]

theorem runGoroutines_trace {σ : Type} (cancel : Option Context) (chiCtx : Context)
    (impls : List (Impl σ)) (order : List Nat) :
    ∀ (s : ConcState σ), (∀ i, i ∈ order → i < impls.length) →
      ∃ chunks : List (List Event),
        (runGoroutines cancel chiCtx impls order s).trace = s.trace ++ chunks.flatten ∧
        List.Forall₂ (goroutineEvents cancel chiCtx) order chunks := by
  induction order with
  | nil =>
    intro s _
    exact ⟨[], by simp [runGoroutines], List.Forall₂.nil⟩
  | cons i rest ih =>
    intro s h
    have hi : i < impls.length := h i (List.mem_cons_self _ _)
    obtain ⟨impl, himpl⟩ : ∃ impl, impls[i]? = some impl :=
      ⟨impls[i], List.getElem?_eq_getElem hi⟩
    rw [runGoroutines_cons cancel chiCtx impls i rest s impl himpl]
    obtain ⟨evs, hevs, hgood⟩ := goroutine_trace cancel chiCtx i impl s
    obtain ⟨chunks, htr, hall⟩ :=
      ih (goroutine cancel chiCtx i impl s) (fun j hj => h j (List.mem_cons_of_mem _ hj))
    refine ⟨evs :: chunks, ?_, List.Forall₂.cons hgood hall⟩
    rw [htr, hevs, List.flatten_cons, List.append_assoc]

theorem runGoroutines_world_none {σ : Type} (chiCtx : Context) (impls : List (Impl σ))
    (order : List Nat) :
    ∀ (s : ConcState σ),
      (runGoroutines none chiCtx impls order s).world = runOrder chiCtx impls order s.world := by
  induction order with
  | nil => intro s; rfl
  | cons i rest ih =>
    intro s
    cases himpl : impls[i]? with
    | none =>
      have h1 : runGoroutines none chiCtx impls (i :: rest) s
          = runGoroutines none chiCtx impls rest s := by
        simp [runGoroutines, himpl]
      have h2 : runOrder chiCtx impls (i :: rest) s.world
          = runOrder chiCtx impls rest s.world := by
        simp [runOrder, himpl]
      rw [h1, h2, ih]
    | some impl =>
      have h2 : runOrder chiCtx impls (i :: rest) s.world
          = runOrder chiCtx impls rest (impl chiCtx s.world).2 := by
        simp [runOrder, himpl]
      rw [runGoroutines_cons none chiCtx impls i rest s impl himpl, h2, ih]
      congr 1
      by_cases hp : (impl chiCtx s.world).1.isNil = true <;> simp [goroutine, hp, callCancel]

theorem mem_order_lt {n : Nat} {order : List Nat} (hperm : order.Perm (List.range n)) :
    ∀ i, i ∈ order → i < n := by
  intro i hi
  exact List.mem_range.1 ((hperm.mem_iff).1 hi)

theorem ran_mem_goroutineEvents {cancel : Option Context} {chiCtx : Context} {i : Nat}
    {evs : List Event} (h : goroutineEvents cancel chiCtx i evs) :
    ∃ e, Event.ran i chiCtx e ∈ evs := by
  obtain ⟨e, h | h⟩ := h
  · exact ⟨e, by rw [h.2]; exact List.mem_cons_self _ _⟩
  · obtain ⟨_, a, ha⟩ := h
    exact ⟨e, by rw [ha]; exact List.mem_cons_self _ _⟩

theorem ran_ctx_of_mem_goroutineEvents {cancel : Option Context} {chiCtx : Context} {i : Nat}
    {evs : List Event} (h : goroutineEvents cancel chiCtx i evs)
    {j : Nat} {c : Context} {e : Error} (hmem : Event.ran j c e ∈ evs) : c = chiCtx := by
  obtain ⟨e0, h | h⟩ := h
  · rw [h.2] at hmem
    simp at hmem
    exact hmem.2.1
  · obtain ⟨_, a, ha⟩ := h
    rw [ha] at hmem
    cases cancel <;> simp [cancelEvents] at hmem <;> exact hmem.2.1

theorem no_cancel_in_goroutineEvents {chiCtx : Context} {i : Nat}
    {evs : List Event} (h : goroutineEvents none chiCtx i evs) (c : Context) :
    Event.cancel c ∉ evs := by
  obtain ⟨e0, h | h⟩ := h
  · rw [h.2]; simp
  · obtain ⟨_, a, ha⟩ := h
    rw [ha]; simp [cancelEvents]

/-- C7. The process built by `Concurrent`, for every completion order of its
children: every call of a child is made with `ctx` itself, every child is
called, no cancel function is called (the events are one block per goroutine, in
completion order, with no `cancel` in it, followed by the return of
`wg.Wait()`), and the state left is the one the children leave. -/
theorem Concurrent_shares_ctx {σ : Type} (impls : List (Impl σ)) (order : List Nat)
    (ctx : Context) (w : World σ) (hperm : order.Perm (List.range impls.length)) :
    (∀ i c e, Event.ran i c e ∈ (concurrentRun false impls order ctx w).trace → c = ctx) ∧
    (∀ i, i < impls.length →
      ∃ e, Event.ran i ctx e ∈ (concurrentRun false impls order ctx w).trace) ∧
    (∀ c, Event.cancel c ∉ (concurrentRun false impls order ctx w).trace) ∧
    (∃ chunks : List (List Event),
      (concurrentRun false impls order ctx w).trace = chunks.flatten ++ [Event.waited] ∧
      List.Forall₂ (goroutineEvents none ctx) order chunks) ∧
    (Concurrent impls order ctx w).2 = runOrder ctx impls order w := by
  obtain ⟨chunks, htr, hall⟩ :=
    runGoroutines_trace none ctx impls order ⟨nil, w, []⟩ (mem_order_lt hperm)
  have htrace : (concurrentRun false impls order ctx w).trace
      = chunks.flatten ++ [Event.waited] := by
    simp [concurrentRun, callCancel, htr]
  refine ⟨?_, ?_, ?_, ⟨chunks, htrace, hall⟩, ?_⟩
  · intro i c e hmem
    rw [htrace] at hmem
    simp only [List.mem_append, List.mem_flatten, List.mem_singleton] at hmem
    rcases hmem with ⟨ch, hch, hin⟩ | h
    · obtain ⟨j, _, hj⟩ := forall₂_exists_of_mem_right hall hch
      exact ran_ctx_of_mem_goroutineEvents hj hin
    · cases h
  · intro i hi
    have hmem : i ∈ order := (hperm.mem_iff).2 (List.mem_range.2 hi)
    obtain ⟨ch, hch, hgood⟩ := forall₂_exists_of_mem_left hall hmem
    obtain ⟨e, he⟩ := ran_mem_goroutineEvents hgood
    refine ⟨e, ?_⟩
    rw [htrace]
    exact List.mem_append_left _ (List.mem_flatten.2 ⟨ch, hch, he⟩)
  · intro c hmem
    rw [htrace] at hmem
    simp only [List.mem_append, List.mem_flatten, List.mem_singleton] at hmem
    rcases hmem with ⟨ch, hch, hin⟩ | h
    · obtain ⟨j, _, hj⟩ := forall₂_exists_of_mem_right hall hch
      exact no_cancel_in_goroutineEvents hj c hin
    · cases h
  · have h := runGoroutines_world_none ctx impls order ⟨nil, w, []⟩
    simpa [Concurrent, concurrent, concurrentRun, callCancel] using h

theorem Concurrent_shares_ctx_witness :
    (∀ i c e, Event.ran i c e ∈
        (concurrentRun false [failWith "e1", succeed] [1, 0] Context.background world0).trace →
      c = Context.background) ∧
    (∀ i, i < [failWith "e1", succeed].length →
      ∃ e, Event.ran i Context.background e ∈
        (concurrentRun false [failWith "e1", succeed] [1, 0] Context.background world0).trace) ∧
    (∀ c, Event.cancel c ∉
      (concurrentRun false [failWith "e1", succeed] [1, 0] Context.background world0).trace) ∧
    (∃ chunks : List (List Event),
      (concurrentRun false [failWith "e1", succeed] [1, 0] Context.background world0).trace
        = chunks.flatten ++ [Event.waited] ∧
      List.Forall₂ (goroutineEvents none Context.background) [1, 0] chunks) ∧
    (Concurrent [failWith "e1", succeed] [1, 0] Context.background world0).2
      = runOrder Context.background [failWith "e1", succeed] [1, 0] world0 :=
  Concurrent_shares_ctx [failWith "e1", succeed] [1, 0] Context.background world0
    (List.Perm.swap 0 1 [])

theorem goroutine_group {σ : Type} (d : Context) (impls : List (Impl σ)) (i : Nat)
    (impl : Impl σ) (s : ConcState σ) (himpl : impls[i]? = some impl) :
    (goroutine (some d) d i impl s).trace
        = s.trace ++ goroutineBlock d i (impl d s.world).1 s.allErr ∧
      ((goroutine (some d) d i impl s).world, (goroutine (some d) d i impl s).allErr)
        = groupStep d impls (s.world, s.allErr) i := by
  by_cases hp : (impl d s.world).1.isNil = true
  · simp [goroutine, groupStep, goroutineBlock, himpl, hp]
  · simp [goroutine, groupStep, goroutineBlock, himpl, hp, callCancel]

theorem groupStep_isDone {σ : Type} (parent : Context) (id : Nat) (impls : List (Impl σ))
    (i : Nat) (impl : Impl σ) (st : World σ × Error) (himpl : impls[i]? = some impl)
    (hne : (impl (Context.cancelCtx parent id) st.1).1 ≠ nil) :
    (Context.cancelCtx parent id).isDone
      (groupStep (Context.cancelCtx parent id) impls st i).1.cancelled = true := by
  have hp : (impl (Context.cancelCtx parent id) st.1).1.isNil = false :=
    (isNil_eq_false_iff _).2 hne
  simp [groupStep, himpl, hp, cancelFn, Context.isDone]

theorem groupFold_take_succ {σ : Type} (d : Context) (impls : List (Impl σ))
    (order : List Nat) (st : World σ × Error) (k i : Nat) (hk : order[k]? = some i) :
    groupFold d impls (order.take (k + 1)) st
      = groupStep d impls (groupFold d impls (order.take k) st) i := by
  induction order generalizing st k with
  | nil => simp at hk
  | cons j rest ih =>
    cases k with
    | zero =>
      simp at hk
      subst hk
      simp [groupFold]
    | succ k =>
      have hk2 : rest[k]? = some i := by simpa using hk
      have h := ih (groupStep d impls st j) k hk2
      simpa [groupFold] using h

theorem runGoroutines_group {σ : Type} (d : Context) (impls : List (Impl σ))
    (order : List Nat) :
    ∀ (s : ConcState σ), (∀ i, i ∈ order → i < impls.length) →
      ∃ chunks : List (List Event),
        (runGoroutines (some d) d impls order s).trace = s.trace ++ chunks.flatten ∧
        chunks.length = order.length ∧
        ((runGoroutines (some d) d impls order s).world,
            (runGoroutines (some d) d impls order s).allErr)
          = groupFold d impls order (s.world, s.allErr) ∧
        ∀ k, k < order.length → ∃ i impl, order[k]? = some i ∧ impls[i]? = some impl ∧
          chunks[k]? = some (goroutineBlock d i
            (impl d (groupFold d impls (order.take k) (s.world, s.allErr)).1).1
            (groupFold d impls (order.take k) (s.world, s.allErr)).2) := by
  induction order with
  | nil =>
    intro s _
    refine ⟨[], by simp [runGoroutines], rfl, rfl, ?_⟩
    intro k hk
    simp at hk
  | cons i rest ih =>
    intro s h
    have hi : i < impls.length := h i (List.mem_cons_self _ _)
    obtain ⟨impl, himpl⟩ : ∃ impl, impls[i]? = some impl :=
      ⟨impls[i], List.getElem?_eq_getElem hi⟩
    obtain ⟨hgtr, hgst⟩ := goroutine_group d impls i impl s himpl
    obtain ⟨chunks, htr, hlen, hst, hat⟩ :=
      ih (goroutine (some d) d i impl s) (fun j hj => h j (List.mem_cons_of_mem _ hj))
    rw [hgst] at hst hat
    refine ⟨goroutineBlock d i (impl d s.world).1 s.allErr :: chunks, ?_, ?_, ?_, ?_⟩
    · rw [runGoroutines_cons (some d) d impls i rest s impl himpl, htr, hgtr,
        List.flatten_cons, List.append_assoc]
    · simp [hlen]
    · rw [runGoroutines_cons (some d) d impls i rest s impl himpl, hst]
      simp [groupFold]
    · intro k hk
      cases k with
      | zero => exact ⟨i, impl, by simp, himpl, by simp [groupFold]⟩
      | succ k =>
        obtain ⟨j, implj, hj, himplj, hchunk⟩ := hat k (by simpa using hk)
        refine ⟨j, implj, by simpa using hj, himplj, ?_⟩
        simpa [groupFold] using hchunk

/-- C6. The process built by `ConcurrentGroup`, for every completion order of its
children: there is one context `d`, made from `ctx` by `context.WithCancel`,
with which every call of a child is made, and every child is called. The events
are one block per goroutine, in completion order: the `k`-th block belongs to
the `k`-th child to complete, run on `d` in the state left by the children
before it; when that child returns nil the block is its return and `wg.Done()`;
when it returns a non-nil error the block is its return with that error, the
storing of the error merged into the errors so far, the call of the cancel
function of `d`, then `wg.Done()`, and `d` is done in the state the next child
sees. After the blocks comes the return of `wg.Wait()` and after it one more
call of the cancel function of `d`. The process returns the merged error and
leaves the state left by the children with `d` cancelled, so `d` is done on
every path. -/
theorem ConcurrentGroup_cancels {σ : Type} (impls : List (Impl σ)) (order : List Nat)
    (ctx : Context) (w : World σ) (hperm : order.Perm (List.range impls.length)) :
    ∃ d : Context, d = Context.cancelCtx ctx w.nextId ∧
      (∀ i c e, Event.ran i c e ∈ (concurrentRun true impls order ctx w).trace → c = d) ∧
      (∀ i, i < impls.length →
        ∃ e, Event.ran i d e ∈ (concurrentRun true impls order ctx w).trace) ∧
      (∃ chunks : List (List Event),
        (concurrentRun true impls order ctx w).trace
          = chunks.flatten ++ [Event.waited, Event.cancel d] ∧
        List.Forall₂ (goroutineEvents (some d) d) order chunks) ∧
      (∃ chunks : List (List Event),
        (concurrentRun true impls order ctx w).trace
          = chunks.flatten ++ [Event.waited, Event.cancel d] ∧
        chunks.length = order.length ∧
        ∀ k, k < order.length → ∃ i impl, order[k]? = some i ∧ impls[i]? = some impl ∧
          (((impl d (groupFold d impls (order.take k) ((WithCancel ctx w).2, nil)).1).1 = nil ∧
              chunks[k]? = some [Event.ran i d nil, Event.done i]) ∨
            ((impl d (groupFold d impls (order.take k) ((WithCancel ctx w).2, nil)).1).1 ≠ nil ∧
              chunks[k]? = some
                [Event.ran i d
                    (impl d (groupFold d impls (order.take k) ((WithCancel ctx w).2, nil)).1).1,
                  Event.merged (appendErrs
                    [(groupFold d impls (order.take k) ((WithCancel ctx w).2, nil)).2,
                      (impl d (groupFold d impls (order.take k) ((WithCancel ctx w).2, nil)).1).1]),
                  Event.cancel d, Event.done i] ∧
              d.isDone (groupFold d impls (order.take (k + 1))
                ((WithCancel ctx w).2, nil)).1.cancelled = true))) ∧
      ConcurrentGroup impls order ctx w
        = ((groupFold d impls order ((WithCancel ctx w).2, nil)).2,
            cancelFn d (groupFold d impls order ((WithCancel ctx w).2, nil)).1) ∧
      d.isDone (ConcurrentGroup impls order ctx w).2.cancelled = true := by
  refine ⟨Context.cancelCtx ctx w.nextId, rfl, ?_⟩
  obtain ⟨chunks, htr, hall⟩ :=
    runGoroutines_trace (some (Context.cancelCtx ctx w.nextId)) (Context.cancelCtx ctx w.nextId)
      impls order ⟨nil, (WithCancel ctx w).2, []⟩ (mem_order_lt hperm)
  have htrace : (concurrentRun true impls order ctx w).trace
      = chunks.flatten ++ [Event.waited, Event.cancel (Context.cancelCtx ctx w.nextId)] := by
    simp only [WithCancel] at htr
    simp [concurrentRun, callCancel, WithCancel, htr]
  obtain ⟨blocks, hbtr, hblen, hbst, hbat⟩ :=
    runGoroutines_group (Context.cancelCtx ctx w.nextId) impls order
      ⟨nil, (WithCancel ctx w).2, []⟩ (mem_order_lt hperm)
  have hbtrace : (concurrentRun true impls order ctx w).trace
      = blocks.flatten ++ [Event.waited, Event.cancel (Context.cancelCtx ctx w.nextId)] := by
    simp only [WithCancel] at hbtr
    simp [concurrentRun, callCancel, WithCancel, hbtr]
  have hworld := congrArg Prod.fst hbst
  have herr := congrArg Prod.snd hbst
  simp only at hworld herr
  refine ⟨?_, ?_, ⟨chunks, htrace, hall⟩, ⟨blocks, hbtrace, hblen, ?_⟩, ?_, ?_⟩
  · intro i c e hmem
    rw [htrace] at hmem
    simp only [List.mem_append, List.mem_flatten, List.mem_cons, List.mem_singleton,
      List.not_mem_nil, or_false] at hmem
    rcases hmem with ⟨ch, hch, hin⟩ | h | h
    · obtain ⟨j, _, hj⟩ := forall₂_exists_of_mem_right hall hch
      exact ran_ctx_of_mem_goroutineEvents hj hin
    · cases h
    · cases h
  · intro i hi
    have hmem : i ∈ order := (hperm.mem_iff).2 (List.mem_range.2 hi)
    obtain ⟨ch, hch, hgood⟩ := forall₂_exists_of_mem_left hall hmem
    obtain ⟨e, he⟩ := ran_mem_goroutineEvents hgood
    refine ⟨e, ?_⟩
    rw [htrace]
    exact List.mem_append_left _ (List.mem_flatten.2 ⟨ch, hch, he⟩)
  · intro k hk
    obtain ⟨i, impl, hi, himpl, hchunk⟩ := hbat k hk
    refine ⟨i, impl, hi, himpl, ?_⟩
    by_cases hp : (impl (Context.cancelCtx ctx w.nextId)
        (groupFold (Context.cancelCtx ctx w.nextId) impls (order.take k)
          ((WithCancel ctx w).2, nil)).1).1 = nil
    · left
      refine ⟨hp, ?_⟩
      rw [hchunk, hp]
      rfl
    · right
      refine ⟨hp, ?_, ?_⟩
      · rw [hchunk]
        have hn := (isNil_eq_false_iff _).2 hp
        simp [goroutineBlock, hn]
      · rw [groupFold_take_succ _ _ _ _ k i hi]
        exact groupStep_isDone ctx w.nextId impls i impl _ himpl hp
  · have h1 : (ConcurrentGroup impls order ctx w).1
        = (runGoroutines (some (Context.cancelCtx ctx w.nextId))
            (Context.cancelCtx ctx w.nextId) impls order
            ⟨nil, (WithCancel ctx w).2, []⟩).allErr := by
      simp [ConcurrentGroup, concurrent, concurrentRun, callCancel, WithCancel]
    have h2 : (ConcurrentGroup impls order ctx w).2
        = cancelFn (Context.cancelCtx ctx w.nextId)
          (runGoroutines (some (Context.cancelCtx ctx w.nextId))
            (Context.cancelCtx ctx w.nextId) impls order
            ⟨nil, (WithCancel ctx w).2, []⟩).world := by
      simp [ConcurrentGroup, concurrent, concurrentRun, callCancel, WithCancel]
    apply Prod.ext
    · rw [h1, herr]
    · rw [h2, hworld]
  · simp [ConcurrentGroup, concurrent, concurrentRun, callCancel, cancelFn, WithCancel,
      Context.isDone]

theorem ConcurrentGroup_cancels_witness :
    ∃ d : Context, d = Context.cancelCtx Context.background world0.nextId ∧
      (∀ i c e, Event.ran i c e ∈ (concurrentRun true [failWith "e1", succeed] [0, 1] Context.background world0).trace → c = d) ∧
      (∀ i, i < [failWith "e1", succeed].length →
        ∃ e, Event.ran i d e ∈ (concurrentRun true [failWith "e1", succeed] [0, 1] Context.background world0).trace) ∧
      (∃ chunks : List (List Event),
        (concurrentRun true [failWith "e1", succeed] [0, 1] Context.background world0).trace
          = chunks.flatten ++ [Event.waited, Event.cancel d] ∧
        List.Forall₂ (goroutineEvents (some d) d) [0, 1] chunks) ∧
      (∃ chunks : List (List Event),
        (concurrentRun true [failWith "e1", succeed] [0, 1] Context.background world0).trace
          = chunks.flatten ++ [Event.waited, Event.cancel d] ∧
        chunks.length = [0, 1].length ∧
        ∀ k, k < [0, 1].length → ∃ i impl, [0, 1][k]? = some i ∧ [failWith "e1", succeed][i]? = some impl ∧
          (((impl d (groupFold d [failWith "e1", succeed] ([0, 1].take k) ((WithCancel Context.background world0).2, nil)).1).1 = nil ∧
              chunks[k]? = some [Event.ran i d nil, Event.done i]) ∨
            ((impl d (groupFold d [failWith "e1", succeed] ([0, 1].take k) ((WithCancel Context.background world0).2, nil)).1).1 ≠ nil ∧
              chunks[k]? = some
                [Event.ran i d
                    (impl d (groupFold d [failWith "e1", succeed] ([0, 1].take k) ((WithCancel Context.background world0).2, nil)).1).1,
                  Event.merged (appendErrs
                    [(groupFold d [failWith "e1", succeed] ([0, 1].take k) ((WithCancel Context.background world0).2, nil)).2,
                      (impl d (groupFold d [failWith "e1", succeed] ([0, 1].take k) ((WithCancel Context.background world0).2, nil)).1).1]),
                  Event.cancel d, Event.done i] ∧
              d.isDone (groupFold d [failWith "e1", succeed] ([0, 1].take (k + 1))
                ((WithCancel Context.background world0).2, nil)).1.cancelled = true))) ∧
      ConcurrentGroup [failWith "e1", succeed] [0, 1] Context.background world0
        = ((groupFold d [failWith "e1", succeed] [0, 1] ((WithCancel Context.background world0).2, nil)).2,
            cancelFn d (groupFold d [failWith "e1", succeed] [0, 1] ((WithCancel Context.background world0).2, nil)).1) ∧
      d.isDone (ConcurrentGroup [failWith "e1", succeed] [0, 1] Context.background world0).2.cancelled = true :=
  ConcurrentGroup_cancels [failWith "e1", succeed] [0, 1] Context.background world0
    (List.Perm.refl _)

/-! ## Theorems: concurrent.go and main.go at concrete inputs -/

/-- C2 (failing input). When a child returning the plain error `e1` completes
before a child returning `MultiError{e2, e3}`, both `Concurrent` and
`ConcurrentGroup` return `e1` alone, which is not a `MultiError` and has neither
`e2` nor `e3` among its components; in the other completion order all three
errors are kept. -/
theorem Concurrent_loses_errors :
    [0, 1].Perm (List.range [failWith "e1", failBoth].length) ∧
    (∀ ctx, (failBoth ctx world0).1 = MultiError [leaf "e2", leaf "e3"]) ∧
    (Concurrent [failWith "e1", failBoth] [0, 1] Context.background world0).1 = leaf "e1" ∧
    (ConcurrentGroup [failWith "e1", failBoth] [0, 1] Context.background world0).1 = leaf "e1" ∧
    leaf "e2" ∉ components
      (Concurrent [failWith "e1", failBoth] [0, 1] Context.background world0).1 ∧
    (Concurrent [failWith "e1", failBoth] [1, 0] Context.background world0).1
      = MultiError [leaf "e2", leaf "e3", leaf "e1"] := by
  refine ⟨List.Perm.refl _, fun _ => rfl, rfl, rfl, ?_, rfl⟩
  have h : (Concurrent [failWith "e1", failBoth] [0, 1] Context.background world0).1
      = leaf "e1" := rfl
  rw [h]
  simp [components]

/-- C5 (failing input). For a process that returns a sentinel error: when the
interrupt arrives and `Main` runs on to its `return err` before the process has
finished, `Main` returns nil, not the sentinel error; when the process finishes
first, `Main` returns the sentinel error. -/
theorem Main_returns_nil_on_interrupt :
    Main (failWith "sentinel") [Actor.signal, Actor.main, Actor.main, Actor.main, Actor.main]
      world0 = some nil ∧
    (∀ ctx w, (failWith "sentinel" ctx w).1 = leaf "sentinel") ∧
    leaf "sentinel" ≠ nil ∧
    Main (failWith "sentinel")
      [Actor.worker, Actor.worker, Actor.main, Actor.main, Actor.main, Actor.main]
      world0 = some (leaf "sentinel") := by
  refine ⟨rfl, fun _ _ => rfl, ?_, rfl⟩
  intro h
  cases h

end Proc
